import Mathlib

/-!
Shallow embedding of the ilia3 launcher core (`src/common/src/lib.rs`) and of
the window-item conversion in `src/ilia-windows/src/main.rs`, with theorems
checking the natural-language specification against the code.

Modelling conventions:
* Rust `usize` / `i32` values are Lean `Nat` / `Int` with explicit `% 2^64`
  (resp. two's-complement `% 2^32`) wrapping exactly where the source casts.
* The `f32` scroll offset `new_index as f32 * ITEM_HEIGHT_SCALE_FACTOR` is
  modelled over exact rationals, with `ITEM_HEIGHT_SCALE_FACTOR = 0.00750 = 3/400`.
* `std::process::exit(0)` calls are modelled as a `Terminate` effect; iced
  `Task` values (`text_input::focus`, `snap_to`) as `RequestFocus` / `ScrollTo`
  effects; calling `flags.primary_action` as an `Invoke` effect.
* A Rust panic (`.expect(...)`) is modelled by `RustResult.panic`.
* Rust `String` is modelled as Lean `String`; `str::to_lowercase` as
  per-character lowercasing and `str::contains` as character-level infix,
  which agree with Rust on the ASCII fragment.
-/

namespace Ilia3

/-- The `ItemDescriptor` trait of `common/src/lib.rs`: a display title and an
executable action string. -/
class ItemDescriptor (T : Type) where
  title : T → String
  exec : T → String

export ItemDescriptor (title)

/-- `IliaConfiguration` from `common/src/lib.rs`: the item loader and the
primary action (an `anyhow::Result<()>`-returning function, modelled as
`Except String Unit`). -/
structure IliaConfiguration (T : Type) where
  item_loader : Unit → List T
  primary_action : T → Except String Unit

/-- The application model `State` from `common/src/lib.rs`. -/
structure State (T : Type) where
  entry : String
  apps : List T
  selected_index : Nat
  received_focus : Bool
deriving DecidableEq

/-- The keyboard keys distinguished by `Ilia::update`'s `KeyEvent` arm. -/
inductive Key where
  | Escape
  | ArrowUp
  | ArrowDown
  | Enter
  | Other
deriving DecidableEq

/-- `IliaMessage` from `common/src/lib.rs`. -/
inductive IliaMessage (T : Type) where
  | ModelLoaded (items : List T)
  | EntryUpdate (entry_text : String)
  | ExecuteSelected
  | KeyEvent (key : Key)
  | GainedFocus
  | LostFocus
deriving DecidableEq

/-- The side effects the core requests from its surroundings: the returned
iced tasks (`text_input::focus` = `RequestFocus`, `snap_to` = `ScrollTo`),
the call to `primary_action` (= `Invoke`), and `exit(0)` (= `Terminate`). -/
inductive Effect (T : Type) where
  | RequestFocus
  | ScrollTo (y : ℚ)
  | Invoke (item : T)
  | Terminate
deriving DecidableEq

/-- The outcome of running a Rust function that may panic. -/
inductive RustResult (α : Type) where
  | ok (val : α)
  | panic (msg : String)
deriving DecidableEq

/-- Whether a `RustResult` finished without panicking. -/
def RustResult.isOk {α : Type} : RustResult α → Bool
  | .ok _ => true
  | .panic _ => false

/-- `ITEM_HEIGHT_SCALE_FACTOR = 0.00750` from `common/src/lib.rs`, as the exact
rational 3/400. -/
def ITEM_HEIGHT_SCALE_FACTOR : ℚ := mkRat 3 400

/-- Rust `str::to_lowercase`, restricted to per-character lowercasing. -/
def toLowercase (s : String) : String := String.mk (s.toList.map Char.toLower)

/-- Whether the first list is a prefix of the second, decided elementwise. -/
def isPrefixList {α : Type} [DecidableEq α] : List α → List α → Bool
  | [], _ => true
  | _ :: _, [] => false
  | a :: as, b :: bs => if a = b then isPrefixList as bs else false

/-- Substring search: whether `needle` occurs contiguously in `hay`. -/
def containsSub {α : Type} [DecidableEq α] : List α → List α → Bool
  | [], needle => isPrefixList needle []
  | a :: t, needle => isPrefixList needle (a :: t) || containsSub t needle

/-- Rust `str::contains(needle)` on `haystack`, at character granularity. -/
def strContains (haystack needle : String) : Bool :=
  containsSub haystack.toList needle.toList

variable {T : Type}

/-- `Ilia::text_entry_filter`:
`entry.title().to_lowercase().contains(&model.entry.to_lowercase())`. -/
def text_entry_filter [ItemDescriptor T] (entry : T) (model : State T) : Bool :=
  strContains (toLowercase (title entry)) (toLowercase model.entry)

/-- The filtered view: `state.apps.iter().filter(|e| text_entry_filter(e, state))`,
as materialised by `view`, `selected_entry` and `navigate_items`. -/
def filteredView [ItemDescriptor T] (s : State T) : List T :=
  s.apps.filter (fun e => text_entry_filter e s)

/-- `Ilia::selected_entry`: the filtered iterator's `nth(selected_index)`. -/
def selected_entry [ItemDescriptor T] (s : State T) : Option T :=
  (filteredView s)[s.selected_index]?

/-- Rust `x as i32` applied to a `usize` `n`: truncate to the low 32 bits,
read back as two's complement. -/
def usizeToI32 (n : Nat) : Int :=
  if n % 2 ^ 32 < 2 ^ 31 then ((n % 2 ^ 32 : Nat) : Int)
  else ((n % 2 ^ 32 : Nat) : Int) - 2 ^ 32

/-- Rust wrapping `i32` addition. -/
def i32Add (a b : Int) : Int := (a + b + 2 ^ 31) % 2 ^ 32 - 2 ^ 31

/-- Rust `x as usize` applied to an `i32` `x` on a 64-bit target: the value
modulo `2^64`. -/
def i32AsUsize (x : Int) : Nat := (x % 2 ^ 64).toNat

/-- The index computed by `Ilia::navigate_items`:
`(self.state.selected_index as i32 + delta) as usize`. -/
def rustNewIndex (idx : Nat) (delta : Int) : Nat :=
  i32AsUsize (i32Add (usizeToI32 idx) delta)

/-- `Ilia::navigate_items`: compute the candidate index with Rust cast
semantics, count the filtered view, and either commit and `snap_to` or leave
everything unchanged. -/
def navigate_items [ItemDescriptor T] (s : State T) (delta : Int) :
    State T × List (Effect T) :=
  if rustNewIndex s.selected_index delta < (filteredView s).length then
    ({ s with selected_index := rustNewIndex s.selected_index delta },
      [Effect.ScrollTo ((rustNewIndex s.selected_index delta : ℚ) *
        ITEM_HEIGHT_SCALE_FACTOR)])
  else
    (s, [])

/-- `Ilia::update` from `common/src/lib.rs`. Returns the successor state and
the list of emitted effects, or a panic. -/
def update [ItemDescriptor T] (cfg : IliaConfiguration T) (s : State T)
    (message : IliaMessage T) : RustResult (State T × List (Effect T)) :=
  match message with
  | .ModelLoaded items =>
      .ok ({ s with apps := items }, [Effect.RequestFocus])
  | .EntryUpdate entry_text =>
      .ok ({ s with entry := entry_text, selected_index := 0 }, [])
  | .ExecuteSelected =>
      match selected_entry s with
      | some entry =>
          match cfg.primary_action entry with
          | .ok _ => .ok (s, [Effect.Invoke entry])
          | .error _ => .panic "Failed to launch app"
      | none => .ok (s, [])
  | .KeyEvent key =>
      match key with
      | .Escape => .ok (s, [Effect.Terminate])
      | .ArrowUp => .ok (navigate_items s (-1))
      | .ArrowDown => .ok (navigate_items s 1)
      | .Enter =>
          match selected_entry s with
          | some entry =>
              match cfg.primary_action entry with
              | .ok _ => .ok (s, [Effect.Invoke entry])
              | .error _ => .panic "Failed to launch app"
          | none => .ok (s, [])
      | .Other => .ok (s, [])
  | .GainedFocus =>
      .ok ({ s with received_focus := true }, [])
  | .LostFocus =>
      if s.received_focus then .ok (s, [Effect.Terminate]) else .ok (s, [])

/-- The initial state built by `Ilia::new`. -/
def initState : State T :=
  { entry := "", apps := [], selected_index := 0, received_focus := false }

/-- The state after one message, ignoring effects (a panic aborts the process
and leaves the state as it was). -/
def stepState [ItemDescriptor T] (cfg : IliaConfiguration T) (s : State T)
    (m : IliaMessage T) : State T :=
  match update cfg s m with
  | .ok out => out.1
  | .panic _ => s

/-- A concrete item type used to instantiate the generic core in witnesses. -/
structure TItem where
  name : String
deriving DecidableEq

instance : ItemDescriptor TItem where
  title t := t.name
  exec _ := ""

/-- The items of the scenario in the testable-properties section of the spec. -/
def testApps : List TItem := [⟨"Alpha"⟩, ⟨"Bravo"⟩, ⟨"Charlie"⟩]

/-- A loaded state holding the three scenario items, empty filter, index 0. -/
def testState : State TItem :=
  { entry := "", apps := testApps, selected_index := 0, received_focus := false }

/-- A configuration whose primary action always succeeds. -/
def okCfg : IliaConfiguration TItem :=
  { item_loader := fun _ => testApps, primary_action := fun _ => Except.ok () }

theorem usizeToI32_of_lt {idx : Nat} (h : idx < 2 ^ 31) :
    usizeToI32 idx = (idx : Int) := by
  unfold usizeToI32
  have h32 : idx % 2 ^ 32 = idx := Nat.mod_eq_of_lt (by omega)
  rw [h32, if_pos (by omega)]

theorem i32Add_eq {a b : Int} (h1 : -(2 ^ 31) ≤ a + b) (h2 : a + b < 2 ^ 31) :
    i32Add a b = a + b := by
  unfold i32Add
  omega

theorem i32AsUsize_of_nonneg {x : Int} (h0 : 0 ≤ x) (h : x < 2 ^ 64) :
    i32AsUsize x = x.toNat := by
  unfold i32AsUsize
  omega

/-- Behaviour of the Rust cast chain in `navigate_items` for the deltas the
program uses, below the `i32` range: an in-range candidate is computed
exactly, and a candidate of `-1` wraps to `2 ^ 64 - 1`. -/
theorem rustNewIndex_spec (idx : Nat) (delta : Int)
    (hd : delta = -1 ∨ delta = 1) (hidx : idx + 1 < 2 ^ 31) :
    (0 ≤ (idx : Int) + delta →
      rustNewIndex idx delta = ((idx : Int) + delta).toNat) ∧
    ((idx : Int) + delta < 0 → rustNewIndex idx delta = 2 ^ 64 - 1) := by
  rcases hd with h | h <;> subst h
  · cases idx with
    | zero =>
        refine ⟨fun h0 => absurd h0 (by omega), fun _ => ?_⟩
        decide
    | succ k =>
        refine ⟨fun _ => ?_, fun hneg => absurd hneg (by omega)⟩
        unfold rustNewIndex
        rw [usizeToI32_of_lt (by omega), i32Add_eq (by omega) (by omega),
          i32AsUsize_of_nonneg (by omega) (by omega)]
  · refine ⟨fun _ => ?_, fun hneg => absurd hneg (by omega)⟩
    unfold rustNewIndex
    rw [usizeToI32_of_lt (by omega), i32Add_eq (by omega) (by omega),
      i32AsUsize_of_nonneg (by omega) (by omega)]

/-- C1: Navigate(delta) with delta in the set of values -1 and +1 computes
candidate = selected_index + delta over the filtered view of size n; if the
candidate is within the interval from 0 inclusive to n exclusive it commits
the candidate as the new selected_index and emits a ScrollTo side effect,
and otherwise it leaves the state unchanged and emits no side effect (no
wraparound), including Navigate(-1) at index 0 and Navigate(+1) at the last
valid index. Stated for states within the machine-integer ranges the Rust
casts assume. -/
theorem navigate_bounded_no_wraparound {T : Type} [ItemDescriptor T]
    (s : State T) (delta : Int)
    (hdelta : delta = -1 ∨ delta = 1)
    (hidx : s.selected_index + 1 < 2 ^ 31)
    (happs : s.apps.length < 2 ^ 64) :
    ((0 ≤ (s.selected_index : Int) + delta ∧
        (s.selected_index : Int) + delta < ((filteredView s).length : Int)) →
      navigate_items s delta =
        ({ s with selected_index := ((s.selected_index : Int) + delta).toNat },
          [Effect.ScrollTo ((((s.selected_index : Int) + delta).toNat : ℚ) *
            ITEM_HEIGHT_SCALE_FACTOR)])) ∧
    (¬ (0 ≤ (s.selected_index : Int) + delta ∧
        (s.selected_index : Int) + delta < ((filteredView s).length : Int)) →
      navigate_items s delta = (s, [])) := by
  have hflen : (filteredView s).length ≤ s.apps.length :=
    List.length_filter_le _ _
  have hspec := rustNewIndex_spec s.selected_index delta hdelta hidx
  constructor
  · rintro ⟨h0, hlt⟩
    have hM : rustNewIndex s.selected_index delta =
        ((s.selected_index : Int) + delta).toNat := hspec.1 h0
    have hguard : ((s.selected_index : Int) + delta).toNat <
        (filteredView s).length := by omega
    unfold navigate_items
    rw [hM, if_pos hguard]
  · intro hnot
    unfold navigate_items
    rw [if_neg]
    rcases lt_or_le ((s.selected_index : Int) + delta) 0 with hneg | hpos
    · rw [hspec.2 hneg]
      omega
    · have hM := hspec.1 hpos
      rw [hM]
      intro hguard
      exact hnot ⟨hpos, by omega⟩

/-- C1 witness: from the loaded three-item scenario state at index 0,
Navigate(+1) commits index 1 and emits the scroll effect. -/
theorem navigate_bounded_no_wraparound_witness :
    (0 ≤ (testState.selected_index : Int) + 1 ∧
      (testState.selected_index : Int) + 1 <
        ((filteredView testState).length : Int)) ∧
    navigate_items testState 1 =
      ({ testState with selected_index := 1 },
        [Effect.ScrollTo ((1 : ℚ) * ITEM_HEIGHT_SCALE_FACTOR)]) := by
  refine ⟨by decide, ?_⟩
  have h := (navigate_bounded_no_wraparound testState 1 (Or.inr rfl)
    (by decide) (by decide)).1 (by decide)
  simpa [testState, testApps] using h

/-- C5: for every state and every new filter text, UpdateFilterText(new_text)
sets entry_text to new_text and resets selected_index to 0 regardless of its
prior value, and emits no side effect. -/
theorem entry_update_resets_selection {T : Type} [ItemDescriptor T]
    (cfg : IliaConfiguration T) (s : State T) (new_text : String) :
    update cfg s (.EntryUpdate new_text) =
      .ok ({ s with entry := new_text, selected_index := 0 }, []) := rfl

/-- C7: for every state with focused false, FocusLost emits no side effect
and leaves the state unchanged; for every state with focused true, FocusLost
emits exactly one Terminate. -/
theorem lost_focus_terminate {T : Type} [ItemDescriptor T]
    (cfg : IliaConfiguration T) (s : State T) :
    (s.received_focus = false → update cfg s .LostFocus = .ok (s, [])) ∧
    (s.received_focus = true →
      update cfg s .LostFocus = .ok (s, [Effect.Terminate])) := by
  constructor <;> intro h <;> simp [update, h]

/-- C7 witness: concrete states on both sides of the focus flag. -/
theorem lost_focus_terminate_witness :
    update okCfg testState .LostFocus = .ok (testState, []) ∧
    update okCfg { testState with received_focus := true } .LostFocus =
      .ok ({ testState with received_focus := true }, [Effect.Terminate]) :=
  ⟨(lost_focus_terminate okCfg testState).1 rfl,
   (lost_focus_terminate okCfg { testState with received_focus := true }).2 rfl⟩

/-- C9: handling the Enter key event is the same transition as handling the
ExecuteSelected message: same selected entry resolution, same invocation or
no-op, same resulting state and effects. -/
theorem enter_equals_execute_selected {T : Type} [ItemDescriptor T]
    (cfg : IliaConfiguration T) (s : State T) :
    update cfg s (.KeyEvent .Enter) = update cfg s .ExecuteSelected := rfl

/-- A configuration whose primary action always fails. -/
def failCfg : IliaConfiguration TItem :=
  { item_loader := fun _ => [], primary_action := fun _ => Except.error "boom" }

/-- C3 counterexample: with a loaded item whose primary action fails,
ExecuteSelected panics (the Rust code unwraps the action result with
expect), so not every operation is total. -/
theorem update_can_panic :
    update failCfg
      { entry := "", apps := [⟨"Alpha"⟩], selected_index := 0,
        received_focus := false }
      .ExecuteSelected = .panic "Failed to launch app" := rfl

/-- C3 amended: every operation other than ExecuteSelected and the Enter key
is total for every state and input, and ExecuteSelected and Enter are total
whenever the primary action of every item succeeds; index arithmetic never
panics. -/
theorem update_total_unless_action_fails {T : Type} [ItemDescriptor T]
    (cfg : IliaConfiguration T) (s : State T) (m : IliaMessage T) :
    ((m ≠ .ExecuteSelected ∧ m ≠ .KeyEvent .Enter) →
      (update cfg s m).isOk = true) ∧
    ((∀ t, (cfg.primary_action t).isOk = true) →
      (update cfg s m).isOk = true) := by
  have hexec : (∀ t, (cfg.primary_action t).isOk = true) →
      (update cfg s .ExecuteSelected).isOk = true := by
    intro hact
    rcases hsel : selected_entry s with _ | entry
    · simp [update, hsel, RustResult.isOk]
    · rcases hres : cfg.primary_action entry with err | u
      · have hthis := hact entry
        rw [hres] at hthis
        simp [Except.isOk, Except.toBool] at hthis
      · simp [update, hsel, hres, RustResult.isOk]
  constructor
  · rintro ⟨hne, hnk⟩
    cases m with
    | ModelLoaded items => simp [update, RustResult.isOk]
    | EntryUpdate t => simp [update, RustResult.isOk]
    | ExecuteSelected => exact absurd rfl hne
    | KeyEvent k =>
        cases k with
        | Escape => simp [update, RustResult.isOk]
        | ArrowUp => simp [update, RustResult.isOk]
        | ArrowDown => simp [update, RustResult.isOk]
        | Enter => exact absurd rfl hnk
        | Other => simp [update, RustResult.isOk]
    | GainedFocus => simp [update, RustResult.isOk]
    | LostFocus =>
        by_cases hf : s.received_focus <;> simp [update, hf, RustResult.isOk]
  · intro hact
    cases m with
    | ModelLoaded items => simp [update, RustResult.isOk]
    | EntryUpdate t => simp [update, RustResult.isOk]
    | ExecuteSelected => exact hexec hact
    | KeyEvent k =>
        cases k with
        | Escape => simp [update, RustResult.isOk]
        | ArrowUp => simp [update, RustResult.isOk]
        | ArrowDown => simp [update, RustResult.isOk]
        | Enter => exact hexec hact
        | Other => simp [update, RustResult.isOk]
    | GainedFocus => simp [update, RustResult.isOk]
    | LostFocus =>
        by_cases hf : s.received_focus <;> simp [update, hf, RustResult.isOk]

/-- C3 amended witness: with an always-succeeding action, ExecuteSelected on
a loaded state does not panic. -/
theorem update_total_unless_action_fails_witness :
    (update okCfg testState .ExecuteSelected).isOk = true :=
  (update_total_unless_action_fails okCfg testState .ExecuteSelected).2
    (fun _ => rfl)

theorem stepState_execute {T : Type} [ItemDescriptor T]
    (cfg : IliaConfiguration T) (s : State T) :
    stepState cfg s .ExecuteSelected = s := by
  rcases hsel : selected_entry s with _ | entry
  · simp [stepState, update, hsel]
  · rcases hres : cfg.primary_action entry with err | u <;>
      simp [stepState, update, hsel, hres]

/-- C6: ExecuteSelected never changes the state; when the filtered view has
no entry at selected_index it emits no Invoke, and otherwise it emits
exactly one Invoke carrying the entry of the filtered view at
selected_index (provided invoking it succeeds, otherwise the process
panics). -/
theorem execute_selected_spec {T : Type} [ItemDescriptor T]
    (cfg : IliaConfiguration T) (s : State T) :
    stepState cfg s .ExecuteSelected = s ∧
    ((filteredView s)[s.selected_index]? = none →
      update cfg s .ExecuteSelected = .ok (s, [])) ∧
    (∀ entry, (filteredView s)[s.selected_index]? = some entry →
      (cfg.primary_action entry).isOk = true →
      update cfg s .ExecuteSelected = .ok (s, [Effect.Invoke entry])) := by
  refine ⟨stepState_execute cfg s, ?_, ?_⟩
  · intro hnone
    have hsel : selected_entry s = none := hnone
    simp [update, hsel]
  · intro entry hsome hok
    have hsel : selected_entry s = some entry := hsome
    rcases hres : cfg.primary_action entry with err | u
    · rw [hres] at hok
      simp [Except.isOk, Except.toBool] at hok
    · simp [update, hsel, hres]

/-- C6 witness: on the loaded scenario state the highlighted first item is
invoked and the state is unchanged. -/
theorem execute_selected_spec_witness :
    update okCfg testState .ExecuteSelected =
      .ok (testState, [Effect.Invoke ⟨"Alpha"⟩]) :=
  (execute_selected_spec okCfg testState).2.2 ⟨"Alpha"⟩ (by decide) rfl

theorem isPrefixList_iff {α : Type} [DecidableEq α] (needle hay : List α) :
    isPrefixList needle hay = true ↔ ∃ post, hay = needle ++ post := by
  induction needle generalizing hay with
  | nil => simp [isPrefixList]
  | cons a as ih =>
      cases hay with
      | nil => simp [isPrefixList]
      | cons b bs =>
          by_cases hab : a = b
          · subst hab
            simp [isPrefixList, ih]
          · simp only [isPrefixList, if_neg hab]
            constructor
            · intro h
              exact absurd h (by simp)
            · rintro ⟨post, hpost⟩
              obtain ⟨hba, -⟩ : b = a ∧ bs = as ++ post := by simpa using hpost
              exact (hab hba.symm).elim

theorem containsSub_iff {α : Type} [DecidableEq α] (hay needle : List α) :
    containsSub hay needle = true ↔
      ∃ pre post, hay = pre ++ needle ++ post := by
  induction hay with
  | nil =>
      cases needle with
      | nil =>
          constructor
          · intro _
            exact ⟨[], [], rfl⟩
          · intro _
            rfl
      | cons a t =>
          constructor
          · intro h
            simp [containsSub, isPrefixList] at h
          · rintro ⟨pre, post, h⟩
            exact absurd h (by simp)
  | cons a t ih =>
      simp only [containsSub, Bool.or_eq_true, ih, isPrefixList_iff]
      constructor
      · rintro (⟨post, hpost⟩ | ⟨pre, post, h⟩)
        · exact ⟨[], post, by simp [hpost]⟩
        · exact ⟨a :: pre, post, by simp [h]⟩
      · rintro ⟨pre, post, h⟩
        cases pre with
        | nil => exact Or.inl ⟨post, by simpa using h⟩
        | cons x xs =>
            obtain ⟨hax, ht⟩ : a = x ∧ t = xs ++ needle ++ post := by
              simpa using h
            exact Or.inr ⟨xs, post, ht⟩

theorem containsSub_nil_needle {α : Type} [DecidableEq α] (hay : List α) :
    containsSub hay [] = true := by
  cases hay <;> simp [containsSub, isPrefixList]

/-- The specification predicate for the filter: the case-folded filter text
occurs contiguously inside the case-folded title. -/
def specMatchesCI (titleStr ftext : String) : Prop :=
  ∃ pre post : List Char,
    (toLowercase titleStr).toList = pre ++ (toLowercase ftext).toList ++ post

/-- A state holding only a filter text, for concrete filter checks. -/
def filterOnly (ftext : String) : State TItem :=
  { entry := ftext, apps := [], selected_index := 0, received_focus := false }

/-- C4: the filtered view is exactly the subsequence of items whose title
contains the case-folded filter text as a substring, case-insensitively, in
the original item order; the empty filter matches every item; a title
Firefox matches the filters fire, FIRE and the empty string but not
firefoxx. -/
theorem filtered_view_spec {T : Type} [ItemDescriptor T] (s : State T) :
    List.Sublist (filteredView s) s.apps ∧
    (∀ e, e ∈ filteredView s ↔ e ∈ s.apps ∧ specMatchesCI (title e) s.entry) ∧
    (s.entry = "" → filteredView s = s.apps) ∧
    (text_entry_filter (⟨"Firefox"⟩ : TItem) (filterOnly "fire") = true ∧
      text_entry_filter (⟨"Firefox"⟩ : TItem) (filterOnly "FIRE") = true ∧
      text_entry_filter (⟨"Firefox"⟩ : TItem) (filterOnly "") = true ∧
      text_entry_filter (⟨"Firefox"⟩ : TItem) (filterOnly "firefoxx") = false) := by
  refine ⟨List.filter_sublist s.apps, ?_, ?_, by decide, by decide, by decide,
    by decide⟩
  · intro e
    rw [filteredView, List.mem_filter, text_entry_filter, strContains,
      containsSub_iff]
    exact and_congr_right fun _ => Iff.rfl
  · intro hempty
    rw [filteredView, List.filter_eq_self]
    intro e _
    rw [text_entry_filter, strContains, hempty]
    exact containsSub_nil_needle _

/-- C4 witness: with the empty filter of the scenario state, the filtered
view is the whole item list. -/
theorem filtered_view_spec_witness :
    filteredView testState = testState.apps :=
  (filtered_view_spec testState).2.2.1 rfl

/-- Whether a message is the load-completion message. -/
def isModelLoaded : IliaMessage T → Bool
  | .ModelLoaded _ => true
  | _ => false

/-- The inductive invariant: before a load the index is 0, and with a
non-empty filtered view the index is inside it. -/
def Inv [ItemDescriptor T] (s : State T) : Prop :=
  (s.apps = [] → s.selected_index = 0) ∧
  (0 < (filteredView s).length →
    s.selected_index < (filteredView s).length)

theorem inv_init [ItemDescriptor T] : Inv (initState (T := T)) := by
  constructor
  · intro _
    rfl
  · intro h
    simp [filteredView, initState] at h

theorem navigate_items_fst_apps [ItemDescriptor T] (s : State T)
    (delta : Int) : ((navigate_items s delta).1).apps = s.apps := by
  unfold navigate_items
  split <;> rfl

theorem inv_navigate [ItemDescriptor T] (s : State T) (delta : Int)
    (h : Inv s) : Inv (navigate_items s delta).1 := by
  unfold navigate_items
  by_cases hg : rustNewIndex s.selected_index delta < (filteredView s).length
  · rw [if_pos hg]
    constructor
    · intro happ
      exfalso
      have hempty : filteredView s = [] := by
        rw [filteredView]
        have : s.apps = [] := happ
        rw [this]
        rfl
      rw [hempty] at hg
      simp at hg
    · intro _
      exact hg
  · rw [if_neg hg]
    exact h

theorem stepState_lost_focus [ItemDescriptor T] (cfg : IliaConfiguration T)
    (s : State T) : stepState cfg s .LostFocus = s := by
  by_cases hf : s.received_focus <;> simp [stepState, update, hf]

theorem stepState_apps_not_load [ItemDescriptor T]
    (cfg : IliaConfiguration T) (s : State T) (m : IliaMessage T)
    (hm : isModelLoaded m = false) :
    (stepState cfg s m).apps = s.apps := by
  cases m with
  | ModelLoaded items => simp [isModelLoaded] at hm
  | EntryUpdate t => rfl
  | ExecuteSelected => rw [stepState_execute]
  | KeyEvent k =>
      cases k with
      | Escape => rfl
      | ArrowUp => exact navigate_items_fst_apps s (-1)
      | ArrowDown => exact navigate_items_fst_apps s 1
      | Enter =>
          show (stepState cfg s .ExecuteSelected).apps = s.apps
          rw [stepState_execute]
      | Other => rfl
  | GainedFocus => rfl
  | LostFocus => rw [stepState_lost_focus]

theorem inv_step_not_load [ItemDescriptor T] (cfg : IliaConfiguration T)
    (s : State T) (m : IliaMessage T) (hm : isModelLoaded m = false)
    (h : Inv s) : Inv (stepState cfg s m) := by
  cases m with
  | ModelLoaded items => simp [isModelLoaded] at hm
  | EntryUpdate t =>
      constructor
      · intro _
        rfl
      · intro hlen
        exact hlen
  | ExecuteSelected => rw [stepState_execute]; exact h
  | KeyEvent k =>
      cases k with
      | Escape => exact h
      | ArrowUp => exact inv_navigate s (-1) h
      | ArrowDown => exact inv_navigate s 1 h
      | Enter =>
          show Inv (stepState cfg s .ExecuteSelected)
          rw [stepState_execute]
          exact h
      | Other => exact h
  | GainedFocus => exact h
  | LostFocus => rw [stepState_lost_focus]; exact h

theorem inv_step_load [ItemDescriptor T] (cfg : IliaConfiguration T)
    (s : State T) (items : List T) (happs : s.apps = []) (h : Inv s) :
    Inv (stepState cfg s (.ModelLoaded items)) := by
  have hidx : s.selected_index = 0 := h.1 happs
  constructor
  · intro _
    exact hidx
  · intro hlen
    show s.selected_index <
      (filteredView { s with apps := items }).length
    rw [hidx]
    exact hlen

theorem inv_fold [ItemDescriptor T] (cfg : IliaConfiguration T)
    (msgs : List (IliaMessage T)) :
    ∀ s : State T, Inv s →
      msgs.countP isModelLoaded ≤ 1 →
      (0 < msgs.countP isModelLoaded → s.apps = []) →
      Inv (msgs.foldl (stepState cfg) s) := by
  induction msgs with
  | nil =>
      intro s h _ _
      exact h
  | cons m rest ih =>
      intro s h hcount hload
      rw [List.foldl_cons]
      rw [List.countP_cons] at hcount hload
      cases hm : isModelLoaded m with
      | false =>
          rw [hm] at hcount hload
          have hc2 : rest.countP isModelLoaded ≤ 1 := by
            simpa using hcount
          have hl2 : 0 < rest.countP isModelLoaded → s.apps = [] := by
            intro hpos
            apply hload
            simpa using hpos
          refine ih (stepState cfg s m) (inv_step_not_load cfg s m hm h)
            hc2 ?_
          intro hpos
          rw [stepState_apps_not_load cfg s m hm]
          exact hl2 hpos
      | true =>
          have hrest : rest.countP isModelLoaded = 0 := by
            rw [hm] at hcount
            have hc2 : rest.countP isModelLoaded + 1 ≤ 1 := by
              simpa using hcount
            omega
          have happs : s.apps = [] := by
            apply hload
            rw [hm]
            simp
          cases m with
          | ModelLoaded items =>
              refine ih (stepState cfg s (.ModelLoaded items))
                (inv_step_load cfg s items happs h) (by omega) ?_
              intro hpos
              exact absurd hpos (by omega)
          | EntryUpdate t => simp [isModelLoaded] at hm
          | ExecuteSelected => simp [isModelLoaded] at hm
          | KeyEvent k => simp [isModelLoaded] at hm
          | GainedFocus => simp [isModelLoaded] at hm
          | LostFocus => simp [isModelLoaded] at hm

/-- C2: in every state reachable from the initial state by a sequence of
operations containing at most one load, whenever the filtered view is
non-empty the selected index lies within its bounds. -/
theorem selected_index_invariant {T : Type} [ItemDescriptor T]
    (cfg : IliaConfiguration T) (msgs : List (IliaMessage T))
    (hload : msgs.countP isModelLoaded ≤ 1)
    (hne : 0 < (filteredView (msgs.foldl (stepState cfg) initState)).length) :
    (msgs.foldl (stepState cfg) initState).selected_index <
      (filteredView (msgs.foldl (stepState cfg) initState)).length :=
  (inv_fold cfg msgs initState inv_init hload (fun _ => rfl)).2 hne

/-- C2 witness: load the three scenario items and navigate down once; the
resulting index 1 is inside the filtered view of size 3. -/
theorem selected_index_invariant_witness :
    ([IliaMessage.ModelLoaded testApps,
        IliaMessage.KeyEvent Key.ArrowDown].countP isModelLoaded ≤ 1) ∧
    0 < (filteredView
      ([IliaMessage.ModelLoaded testApps,
        IliaMessage.KeyEvent Key.ArrowDown].foldl (stepState okCfg)
          initState)).length ∧
    ([IliaMessage.ModelLoaded testApps,
        IliaMessage.KeyEvent Key.ArrowDown].foldl (stepState okCfg)
          initState).selected_index <
      (filteredView
        ([IliaMessage.ModelLoaded testApps,
          IliaMessage.KeyEvent Key.ArrowDown].foldl (stepState okCfg)
            initState)).length :=
  ⟨by decide, by decide,
    selected_index_invariant okCfg
      [IliaMessage.ModelLoaded testApps, IliaMessage.KeyEvent Key.ArrowDown]
      (by decide) (by decide)⟩

/-- A state with 200 loaded items and the selection far enough down that the
next scroll offset exceeds 1. -/
def bigState : State TItem :=
  { entry := "", apps := List.replicate 200 ⟨"A"⟩, selected_index := 133,
    received_focus := false }

set_option maxRecDepth 8000 in
/-- C8: every committed navigation to candidate index i emits ScrollTo with
the raw product i * ITEM_HEIGHT_SCALE_FACTOR, the constant equals 3/400,
and no clamping to the unit interval is performed: from index 133 of a
200-item view the emitted offset 134 * 3/400 exceeds 1. -/
theorem scroll_offset_raw_unclamped {T : Type} [ItemDescriptor T]
    (s : State T) (delta : Int) :
    (rustNewIndex s.selected_index delta < (filteredView s).length →
      navigate_items s delta =
        ({ s with selected_index := rustNewIndex s.selected_index delta },
          [Effect.ScrollTo ((rustNewIndex s.selected_index delta : ℚ) *
            ITEM_HEIGHT_SCALE_FACTOR)])) ∧
    ITEM_HEIGHT_SCALE_FACTOR = mkRat 3 400 ∧
    (1 < ((134 : ℚ) * ITEM_HEIGHT_SCALE_FACTOR) ∧
      navigate_items bigState 1 =
        ({ bigState with selected_index := 134 },
          [Effect.ScrollTo ((134 : ℚ) * ITEM_HEIGHT_SCALE_FACTOR)])) := by
  have hval : ITEM_HEIGHT_SCALE_FACTOR = (3 : ℚ) / 400 := by
    rw [ITEM_HEIGHT_SCALE_FACTOR, Rat.mkRat_eq_divInt, Rat.divInt_eq_div]
    norm_num
  refine ⟨?_, rfl, ?_, ?_⟩
  · intro hg
    unfold navigate_items
    rw [if_pos hg]
  · rw [hval]
    norm_num
  · have hall : filteredView bigState = bigState.apps := by
      rw [filteredView, List.filter_eq_self]
      intro e _
      exact containsSub_nil_needle _
    have hlen : (filteredView bigState).length = 200 := by
      rw [hall]
      rfl
    have hidx : rustNewIndex bigState.selected_index 1 = 134 := by decide
    unfold navigate_items
    rw [hidx, hlen, if_pos (by norm_num)]
    norm_num

/-- C8 witness: from the scenario state at index 0, Navigate(+1) commits
index 1 and emits exactly the raw product as the scroll offset. -/
theorem scroll_offset_raw_unclamped_witness :
    navigate_items testState 1 =
      ({ testState with
          selected_index := rustNewIndex testState.selected_index 1 },
        [Effect.ScrollTo ((rustNewIndex testState.selected_index 1 : ℚ) *
          ITEM_HEIGHT_SCALE_FACTOR)]) :=
  (scroll_offset_raw_unclamped testState 1).1 (by decide)

/-- The UTF-8 byte length of a Rust string, as Rust str::len computes it. -/
def utf8Len (l : List Char) : Nat := (l.map Char.utf8Size).sum

/-- The character prefix consuming exactly n UTF-8 bytes, as Rust byte
slicing with the range up to n: none models the panic raised when byte n
is not a character boundary or the string is shorter than n bytes. -/
def takeBytes (l : List Char) : Nat → Option (List Char)
  | 0 => some []
  | n + 1 =>
      match l with
      | [] => none
      | c :: cs =>
          if c.utf8Size ≤ n + 1 then
            (takeBytes cs (n + 1 - c.utf8Size)).map (fun p => c :: p)
          else none

/-- A sway window-manager node, restricted to the fields the conversion in
ilia-windows reads. -/
structure Node where
  id : Int
  name : Option String
deriving DecidableEq

/-- The windows-launcher Item: a node id and a display title. -/
structure WItem where
  id : Int
  title : String
deriving DecidableEq

/-- The From Node for Item conversion of ilia-windows: unwrap the node name
(a panic, modelled as none, when absent); when the name is longer than 12
bytes, truncate to its first 12 bytes (a panic, modelled as none, when byte
12 is not a character boundary) and append a horizontal ellipsis. -/
def itemFromNode (node : Node) : Option WItem :=
  match node.name with
  | none => none
  | some name =>
      if 12 < utf8Len name.toList then
        match takeBytes name.toList 12 with
        | none => none
        | some pre => some ⟨node.id, String.mk (pre ++ ['…'])⟩
      else some ⟨node.id, name⟩

theorem takeBytes_length_le (l : List Char) :
    ∀ (n : Nat) (pre : List Char), takeBytes l n = some pre →
      pre.length ≤ n := by
  induction l with
  | nil =>
      intro n pre h
      cases n with
      | zero =>
          simp only [takeBytes, Option.some.injEq] at h
          subst h
          exact Nat.le_refl 0
      | succ k => simp [takeBytes] at h
  | cons c cs ih =>
      intro n pre h
      cases n with
      | zero =>
          simp only [takeBytes, Option.some.injEq] at h
          subst h
          exact Nat.le_refl 0
      | succ k =>
          simp only [takeBytes] at h
          by_cases hc : c.utf8Size ≤ k + 1
          · rw [if_pos hc] at h
            rcases hm : takeBytes cs (k + 1 - c.utf8Size) with _ | p
            · rw [hm] at h
              simp at h
            · rw [hm] at h
              have hpre : c :: p = pre := by simpa using h
              have hp := ih (k + 1 - c.utf8Size) p hm
              have hs := Char.utf8Size_pos c
              subst hpre
              simp only [List.length_cons]
              omega
          · rw [if_neg hc] at h
            simp at h

/-- C10 counterexample: a node with a name (eleven ASCII letters followed
by a two-byte character) on which the conversion panics, because byte 12
falls inside the final character; the conversion is therefore not total on
nodes that have a name, and the truncation boundary is counted in bytes,
not characters. -/
theorem item_from_node_panics :
    (Node.mk 0 (some "aaaaaaaaaaaé")).name.isSome = true ∧
    itemFromNode (Node.mk 0 (some "aaaaaaaaaaaé")) = none := by
  refine ⟨rfl, ?_⟩
  decide

/-- C10 amended: for every node whose name is present and, when longer than
12 bytes, has a character boundary at byte 12, the conversion succeeds and
yields the name itself when its byte length is at most 12, and otherwise
its first 12 bytes followed by an ellipsis, a title of at most 13
characters. -/
theorem item_from_node_spec (node : Node) (name : String)
    (hname : node.name = some name)
    (hbound : utf8Len name.toList ≤ 12 ∨
      (takeBytes name.toList 12).isSome = true) :
    ∃ it : WItem, itemFromNode node = some it ∧ it.id = node.id ∧
      (utf8Len name.toList ≤ 12 → it.title = name) ∧
      (12 < utf8Len name.toList →
        ∃ pre, takeBytes name.toList 12 = some pre ∧
          it.title = String.mk (pre ++ ['…']) ∧
          it.title.toList.length ≤ 13) := by
  simp only [itemFromNode, hname]
  by_cases h12 : 12 < utf8Len name.toList
  · have hsome : (takeBytes name.toList 12).isSome = true := by
      rcases hbound with hb | hb
      · omega
      · exact hb
    rcases hm : takeBytes name.toList 12 with _ | pre
    · rw [hm] at hsome
      simp at hsome
    · rw [if_pos h12]
      refine ⟨⟨node.id, String.mk (pre ++ ['…'])⟩, rfl, rfl, ?_, ?_⟩
      · intro hle
        omega
      · intro _
        refine ⟨pre, rfl, rfl, ?_⟩
        have hp := takeBytes_length_le name.toList 12 pre hm
        have : (String.mk (pre ++ ['…'])).toList = pre ++ ['…'] := rfl
        rw [this, List.length_append]
        simp
        omega
  · rw [if_neg h12]
    exact ⟨⟨node.id, name⟩, rfl, rfl, fun _ => rfl, fun h => absurd h h12⟩

/-- C10 amended witness: a short ASCII name converts to itself. -/
theorem item_from_node_spec_witness :
    itemFromNode (Node.mk 7 (some "Hello")) = some ⟨7, "Hello"⟩ := by
  obtain ⟨it, h1, h2, h3, -⟩ := item_from_node_spec (Node.mk 7 (some "Hello"))
    "Hello" rfl (Or.inl (by decide))
  obtain ⟨i, t⟩ := it
  have h4 := h3 (by decide)
  simp only at h2 h4
  subst h2
  subst h4
  exact h1

end Ilia3
